import Mathlib

/-!
Verification of the detection-resolution-rewrite pipeline of the
Allyanonimiser PII anonymization library.

The repository snapshot ships only documentation, changelogs and session
notes; the Python modules implementing the core pipeline
(allyanonimiser/enhanced_anonymizer.py with _remove_overlapping_entities,
allyanonimiser/enhanced_analyzer.py, the operator dispatch and the boundary
trimming logic) are not part of the snapshot.  Every definition below is
therefore modelled from the specification text (spec.md sections 3, 4.5,
4.6, 4.7, 7 and 8), as faithfully as its words allow, and the claims are
settled against these models.
-/

namespace Ally

/-- Modelled from the spec: the Span value type of section 3 (the Python
class is absent from the snapshot).  A half-open interval tagged with an
entity type, the matched text cached at detection time, and a confidence
score.  The Python field named end is called endPos here because end is a
Lean keyword; scores are modelled as rationals. -/
structure Span where
  start : Nat
  endPos : Nat
  entity_type : String
  text : List Char
  score : ℚ
deriving DecidableEq

/-- Length of a span, end minus start. -/
def spanLen (s : Span) : Nat := s.endPos - s.start

/-- The overlap relation of spec section 4.6 step 1:
two spans overlap if a.start < b.endPos and b.start < a.endPos. -/
def overlapsP (a b : Span) : Prop := a.start < b.endPos ∧ b.start < a.endPos

instance (a b : Span) : Decidable (overlapsP a b) :=
  inferInstanceAs (Decidable (_ ∧ _))

/-- Ordering of spans by their start offset. -/
def startLE (a b : Span) : Prop := a.start ≤ b.start

instance : DecidableRel startLE := fun _ _ => Nat.decLe _ _

instance : IsTotal Span startLE := ⟨fun a b => Nat.le_total a.start b.start⟩

instance : IsTrans Span startLE := ⟨fun _ _ _ h h' => Nat.le_trans h h'⟩

/-- Modelled from the spec: candidates are brought into ascending start
order before clustering (section 4.6 step 4 demands start-sorted output). -/
def sortSpans (l : List Span) : List Span := List.insertionSort startLE l

/-- Modelled from the spec: the tie-break chain of section 4.6 step 2.
Decides whether challenger s beats the current winner w: higher priority
first, then higher score, then longer span, then earlier start. -/
def better (prio : String → ℤ) (s w : Span) : Bool :=
  if prio s.entity_type = prio w.entity_type then
    if s.score = w.score then
      if spanLen s = spanLen w then decide (s.start < w.start)
      else decide (spanLen w < spanLen s)
    else decide (w.score < s.score)
  else decide (prio w.entity_type < prio s.entity_type)

/-- The members of a cluster, represented as head plus the other spans. -/
def members (c : Span × List Span) : List Span := c.1 :: c.2

/-- Modelled from the spec: section 4.6 step 2, select exactly one winner
within a cluster by folding the tie-break over its members. -/
def chooseWinner (prio : String → ℤ) (c : Span × List Span) : Span :=
  c.2.foldl (fun w s => if better prio s w then s else w) c.1

/-- Modelled from the spec: section 4.6 steps 1 and 3, grouping the
start-sorted candidates into transitively-overlapping clusters by a single
scan that tracks the maximal end offset m of the open cluster: a span
whose start is below m joins the cluster, otherwise it opens a new one. -/
def clustersAux : List Span → Span → List Span → Nat → List (Span × List Span)
  | [], h, acc, _ => [(h, acc.reverse)]
  | s :: rest, h, acc, m =>
    if s.start < m then clustersAux rest h (s :: acc) (max m s.endPos)
    else (h, acc.reverse) :: clustersAux rest s [] s.endPos

/-- Clusters of a start-sorted span list. -/
def clusters : List Span → List (Span × List Span)
  | [] => []
  | s :: rest => clustersAux rest s [] s.endPos

/-- Modelled from the spec: the Overlap Resolver of section 4.6
(_remove_overlapping_entities in the absent enhanced_anonymizer.py):
sort the candidates by start, group them into transitively-overlapping
clusters, and keep exactly one winner per cluster. -/
def resolve (prio : String → ℤ) (spans : List Span) : List Span :=
  (clusters (sortSpans spans)).map (chooseWinner prio)

/-- Overlap step restricted to a list of spans: both endpoints must be
members.  Chains of this relation express connectivity inside a cluster. -/
def stepIn (l : List Span) (a b : Span) : Prop := a ∈ l ∧ b ∈ l ∧ overlapsP a b

/-- Separation of two clusters: every member of the first one ends before
every member of the second one starts, and starts no later as well. -/
def ClusterSep (c d : Span × List Span) : Prop :=
  ∀ x ∈ members c, ∀ y ∈ members d, x.endPos ≤ y.start ∧ x.start ≤ y.start

/-- Modelled from the spec: the built-in operator names of section 4.7
(the operator dispatch of the absent anonymizer module). -/
inductive BuiltinOp where
  | replace
  | redact
  | mask
  | hash
  | encrypt
  | ageBracket
  | keep
deriving DecidableEq

/-- The configuration-file name of each built-in operator. -/
def opName : BuiltinOp → String
  | .replace => "replace"
  | .redact => "redact"
  | .mask => "mask"
  | .hash => "hash"
  | .encrypt => "encrypt"
  | .ageBracket => "age_bracket"
  | .keep => "keep"

/-- An operator after configuration resolution: a built-in, or a
caller-supplied custom function.  Custom functions may be stateful in the
Python library (class instances with a call method), which the shallow
embedding renders as explicit state passing through a state type σ. -/
inductive ResolvedOp (σ : Type) where
  | builtin (op : BuiltinOp)
  | custom (f : σ → List Char → String → List Char × σ)

/-- An operator configuration entry as the caller supplies it: either a
string naming a built-in operator, or a custom function value. -/
inductive OpSpec (σ : Type) where
  | name (n : String)
  | fn (f : σ → List Char → String → List Char × σ)

/-- Modelled from the spec: the global operator parameters of section 3
(mask character, redaction literal, age-bracket width, reference year for
age computation, optional encryption key). -/
structure AnonParams where
  maskChar : Char
  redactLiteral : List Char
  bracketWidth : Nat
  refYear : Nat
  encryptKey : Option (List Char)

/-- The default parameters used by the documentation examples. -/
def defaultParams : AnonParams :=
  ⟨'*', "[REDACTED]".data, 5, 2025, none⟩

/-- Modelled from the spec: resolution of an operator name string into a
built-in operator; an unrecognized name yields none (section 4.7 demands
that this be a fatal configuration error). -/
def parseOpName (n : String) : Option BuiltinOp :=
  if n = "replace" then some .replace
  else if n = "redact" then some .redact
  else if n = "mask" then some .mask
  else if n = "hash" then some .hash
  else if n = "encrypt" then some .encrypt
  else if n = "age_bracket" then some .ageBracket
  else if n = "keep" then some .keep
  else none

/-- Helper for the mask operator: walk the characters tracking whether the
next character opens a segment; structural characters and segment-initial
characters are kept, all others become the mask character. -/
def maskAux (mc : Char) : Bool → List Char → List Char
  | _, [] => []
  | first, c :: rest =>
    if c = '@' ∨ c = '.' then c :: maskAux mc true rest
    else if first then c :: maskAux mc false rest
    else mc :: maskAux mc false rest

/-- Modelled from the spec: the mask operator of section 4.7, a same-length
masking that preserves the structural characters at and dot and the first
character of each segment. -/
def maskChars (mc : Char) (txt : List Char) : List Char := maskAux mc true txt

/-- A 4-bit value rendered as a hexadecimal digit character. -/
def hexDigitChar (n : Nat) : Char :=
  if n < 10 then Char.ofNat ('0'.toNat + n) else Char.ofNat ('a'.toNat + (n - 10))

/-- A value rendered as a fixed number of hexadecimal digits. -/
def hexFixed : Nat → Nat → List Char
  | 0, _ => []
  | k + 1, v => hexFixed k (v / 16) ++ [hexDigitChar (v % 16)]

/-- Modelled from the spec: a deterministic 32-bit digest of a text (the
concrete hash algorithm is out of scope; only determinism and fixed output
length matter to the spec). -/
def hashChars (txt : List Char) : Nat :=
  txt.foldl (fun a c => (a * 31 + c.toNat) % 4294967296) 7

/-- The hash operator output: eight hexadecimal digits. -/
def hashHex (txt : List Char) : List Char := hexFixed 8 (hashChars txt)

/-- Sum of the code points of a key, the shift used by the modelled cipher. -/
def keySum (k : List Char) : Nat := k.foldl (fun a c => a + c.toNat) 0

/-- Modelled from the spec: the encrypt operator emits a ciphertext tagged
with an algorithm identifier; the cipher itself is modelled as a key-derived
shift of the code points. -/
def encryptChars (k : List Char) (txt : List Char) : List Char :=
  "AES256:".data ++ txt.map (fun c => Char.ofNat ((c.toNat + keySum k) % 128))

/-- Digits of a numeral folded into a natural number. -/
def digitsToNat (l : List Char) : Nat :=
  l.foldl (fun n c => n * 10 + (c.toNat - '0'.toNat)) 0

/-- Modelled from the spec: the age-bracket parser of section 4.7 accepts a
plain age (up to three digits) or a date in day/month/year shape, computing
the age against the configured reference year; anything else fails. -/
def parseAgeOrDate (refYear : Nat) (txt : List Char) : Option Nat :=
  if txt ≠ [] ∧ txt.length ≤ 3 ∧ txt.all Char.isDigit then
    some (digitsToNat txt)
  else if txt.length = 10 ∧ txt[2]? = some '/' ∧ txt[5]? = some '/' ∧
      (txt.take 2).all Char.isDigit ∧ ((txt.drop 3).take 2).all Char.isDigit ∧
      (txt.drop 6).all Char.isDigit then
    if digitsToNat (txt.drop 6) ≤ refYear then
      some (refYear - digitsToNat (txt.drop 6))
    else none
  else none

/-- Modelled from the spec: bucket an age into a fixed-width bracket and
render it as lo-hi; none when the text does not parse as a date or age. -/
def ageBracketText (width refYear : Nat) (txt : List Char) : Option (List Char) :=
  match parseAgeOrDate refYear txt with
  | none => none
  | some age =>
    (Nat.repr ((age / width) * width)).data ++ ['-'] ++
      (Nat.repr ((age / width) * width + width - 1)).data

/-- Modelled from the spec: the built-in operator bodies of section 4.7.
The Bool output is the audit warning flag: per section 7, an age-bracket
parse failure leaves the original text unmodified for that one span and
records an audit warning instead of aborting. -/
def applyBuiltin (params : AnonParams) (op : BuiltinOp) (txt : List Char)
    (ty : String) : List Char × Bool :=
  match op with
  | .replace => ('<' :: ty.data ++ ['>'], false)
  | .redact => (params.redactLiteral, false)
  | .mask => (maskChars params.maskChar txt, false)
  | .hash => (hashHex txt, false)
  | .encrypt => (encryptChars (params.encryptKey.getD []) txt, false)
  | .ageBracket =>
    match ageBracketText params.bracketWidth params.refYear txt with
    | none => (txt, true)
    | some r => (r, false)
  | .keep => (txt, false)

/-- The operator name recorded in the audit trail. -/
def resolvedOpName {σ : Type} : ResolvedOp σ → String
  | .builtin op => opName op
  | .custom _ => "custom"

/-- Apply a resolved operator to a span text, threading the custom-operator
state; built-ins leave the state untouched. -/
def applyResolved {σ : Type} (params : AnonParams) (op : ResolvedOp σ) (st : σ)
    (txt : List Char) (ty : String) : List Char × Bool × σ :=
  match op with
  | .builtin b => ((applyBuiltin params b txt ty).1, (applyBuiltin params b txt ty).2, st)
  | .custom f => ((f st txt ty).1, false, (f st txt ty).2)

/-- Modelled from the spec: one audit record per rewritten span, carrying
entity type, operator used, original and replacement text lengths, and the
local-recovery warning flag (sections 4.7 and 7). -/
structure AuditEntry where
  entity_type : String
  operator : String
  origLen : Nat
  replLen : Nat
  warning : Bool
deriving DecidableEq

/-- Look up the operator configured for an entity type; per the underlying
anonymizer's default, an unconfigured type falls back to replace. -/
def lookupOp {σ : Type} (resolved : List (String × ResolvedOp σ)) (t : String) :
    ResolvedOp σ :=
  match resolved.find? (fun p => p.1 = t) with
  | some p => p.2
  | none => .builtin .replace

/-- Modelled from the spec: the single-pass rewriter of section 4.7.
Iterate the resolved spans in order; for each span copy the untouched gap
from the cursor to the span start verbatim, emit the operator's replacement
computed from the span's cached text, and advance the cursor to the span
end; after the last span copy the tail.  Returns the output text, the audit
trail and the final custom-operator state. -/
def rewriteAux {σ : Type} (params : AnonParams)
    (resolved : List (String × ResolvedOp σ)) (src : List Char) :
    List Span → Nat → σ → List Char × List AuditEntry × σ
  | [], cursor, st => (src.drop cursor, [], st)
  | sp :: rest, cursor, st =>
    let op := lookupOp resolved sp.entity_type
    let r := applyResolved params op st sp.text sp.entity_type
    let tl := rewriteAux params resolved src rest sp.endPos r.2.2
    ((src.take sp.start).drop cursor ++ r.1 ++ tl.1,
     ⟨sp.entity_type, resolvedOpName op, sp.text.length, r.1.length, r.2.1⟩ :: tl.2.1,
     tl.2.2)

/-- Modelled from the spec: configuration resolution at call time.  Every
entry's operator name is resolved into a built-in; an unrecognized name, or
a missing key when encrypt is requested, is a fatal configuration error
(sections 4.7 and 7), so the whole call fails before any text is touched. -/
def resolveConfig {σ : Type} (params : AnonParams) :
    List (String × OpSpec σ) → Except String (List (String × ResolvedOp σ))
  | [] => .ok []
  | (t, .fn f) :: rest =>
    match resolveConfig params rest with
    | .error e => .error e
    | .ok r => .ok ((t, .custom f) :: r)
  | (t, .name n) :: rest =>
    match parseOpName n with
    | none => .error ("Unknown operator: " ++ n)
    | some op =>
      if op = .encrypt ∧ params.encryptKey = none then
        .error "Missing encryption key for encrypt operator"
      else
        match resolveConfig params rest with
        | .error e => .error e
        | .ok r => .ok ((t, .builtin op) :: r)

/-- Modelled from the spec: the anonymization rewrite call surface of
sections 4.7 and 6: resolve the operator configuration, failing the whole
call on a configuration error, then run the single-pass rewriter over the
resolved span set. -/
def rewrite {σ : Type} (params : AnonParams) (cfg : List (String × OpSpec σ))
    (src : List Char) (spans : List Span) (st : σ) :
    Except String (List Char × List AuditEntry × σ) :=
  match resolveConfig params cfg with
  | .error e => .error e
  | .ok resolved => .ok (rewriteAux params resolved src spans 0 st)

/-- Well-formedness of a span against its source text: nonempty interval in
bounds, with the cached text equal to the source slice (the invariant of
spec section 3). -/
def SpanWF (src : List Char) (sp : Span) : Prop :=
  sp.start < sp.endPos ∧ sp.endPos ≤ src.length ∧
    sp.text = (src.take sp.endPos).drop sp.start

instance (src : List Char) (sp : Span) : Decidable (SpanWF src sp) :=
  inferInstanceAs (Decidable (_ ∧ _ ∧ _))

/-- A zero-width marker span used as the chain head when stating that a
span list is resolved: non-overlapping, in order, starting at the cursor. -/
def sentinel (c : Nat) : Span := ⟨c, c, "", [], 0⟩

/-- The Resolved Entity Set invariant of spec section 3: each span ends no
later than the next one starts, and the first starts no earlier than the
cursor. -/
def ResolvedFrom (cursor : Nat) (spans : List Span) : Prop :=
  List.Chain (fun a b => a.endPos ≤ b.start) (sentinel cursor) spans

/-- Executable check of the Resolved Entity Set invariant. -/
def resolvedFromB (cursor : Nat) : List Span → Bool
  | [] => true
  | sp :: rest => decide (cursor ≤ sp.start) && resolvedFromB sp.endPos rest

instance (cursor : Nat) (spans : List Span) : Decidable (ResolvedFrom cursor spans) :=
  decidable_of_iff (resolvedFromB cursor spans = true) (by
    induction spans generalizing cursor with
    | nil => simp [resolvedFromB, ResolvedFrom]
    | cons sp rest ih =>
      have h2 : List.Chain (fun a b => a.endPos ≤ b.start) sp rest ↔
          ResolvedFrom sp.endPos rest := by
        cases rest with
        | nil => simp [ResolvedFrom]
        | cons b l' => simp [ResolvedFrom, List.chain_cons, sentinel]
      show (decide (cursor ≤ sp.start) && resolvedFromB sp.endPos rest) = true ↔
        List.Chain _ (sentinel cursor) (sp :: rest)
      rw [Bool.and_eq_true, decide_eq_true_eq, ih, List.chain_cons]
      exact ⟨fun h => ⟨h.1, h2.mpr h.2⟩, fun h => ⟨h.1, h2.mp h.2⟩⟩)

/-- The audit entry produced for a span under the keep operator. -/
def keepAudit (sp : Span) : AuditEntry :=
  ⟨sp.entity_type, "keep", sp.text.length, sp.text.length, false⟩

/-- The signed length contribution, at positions past p, of the spans
already rewritten by p: for each span ending at or before p, replacement
length minus original length. -/
def shiftSum (pairs : List (Span × Nat)) (p : Nat) : ℤ :=
  ((pairs.filter (fun q => decide (q.1.endPos ≤ p))).map
    (fun q => (q.2 : ℤ) - ((q.1.endPos - q.1.start : Nat) : ℤ))).sum

/-- Whitespace test used by the boundary trimmer's tokenizer. -/
def isWsChar (c : Char) : Bool := c.isWhitespace

/-- Case-folded form of a token, for case-insensitive stop-word matching. -/
def lowerTok (t : List Char) : List Char := t.map Char.toLower

/-- Does a token case-insensitively equal a configured stop word? -/
def isStopTok (sw : List (List Char)) (t : List Char) : Bool :=
  decide (lowerTok t ∈ sw)

/-- Modelled from the spec: the scanning core of the Boundary Trimmer of
section 4.5.  The first argument is the still-unread text in reverse (so
the scan runs from the end of the matched text), the second the token read
so far, kept in text order.  At a whitespace boundary a stop-word token is
dropped and the scan continues; a non-stop-word token ends the scan and
everything from the text start through that token is kept.  none means all
tokens were stop words and the span is dropped entirely. -/
def trimGo (sw : List (List Char)) : List Char → List Char → Option (List Char)
  | [], cur =>
    if cur = [] then none
    else if isStopTok sw cur then none
    else some cur
  | c :: rest, cur =>
    if isWsChar c then
      if cur = [] then trimGo sw rest []
      else if isStopTok sw cur then trimGo sw rest []
      else some (rest.reverse ++ c :: cur)
    else trimGo sw rest (c :: cur)

/-- Trailing stop-word trimming of a matched text. -/
def trimText (sw : List (List Char)) (t : List Char) : Option (List Char) :=
  trimGo sw t.reverse []

/-- Modelled from the spec: the Boundary Trimmer of section 4.5: trim the
cached text and recompute the end offset as start plus the trimmed length;
a span whose tokens are all stop words is dropped entirely. -/
def trimSpan (sw : List (List Char)) (sp : Span) : Option Span :=
  match trimText sw sp.text with
  | none => none
  | some s => some ⟨sp.start, sp.start + s.length, sp.entity_type, s, sp.score⟩

/-- Whitespace-delimited tokenization by the same end-to-start scan the
trimmer uses: tokens are returned last-token-first, each in text order. -/
def revTokensGo : List Char → List Char → List (List Char)
  | [], cur => if cur = [] then [] else [cur]
  | c :: rest, cur =>
    if isWsChar c then
      if cur = [] then revTokensGo rest [] else cur :: revTokensGo rest []
    else revTokensGo rest (c :: cur)

/-- The whitespace-delimited tokens of a text, last token first. -/
def revTokens (t : List Char) : List (List Char) := revTokensGo t.reverse []

/-- The clustering contract of the Overlap Resolver (spec section 4.6 steps
1 to 3): the clusters partition the candidate multiset; every cluster is
connected under chains of the pairwise overlap relation run inside the
cluster; spans of distinct clusters never overlap; two spans share a
cluster exactly when an overlap chain through the candidate set joins them
(so the clusters are the connected components of the overlap relation); and
the resolver output keeps exactly one winning member per cluster. -/
def ResolveClusterSpec (prio : String → ℤ) (spans : List Span) : Prop :=
  (((clusters (sortSpans spans)).map members).flatten.Perm spans) ∧
    (∀ c ∈ clusters (sortSpans spans), ∀ x ∈ members c, ∀ y ∈ members c,
      Relation.ReflTransGen (stepIn (members c)) x y) ∧
    List.Pairwise (fun c d => ∀ x ∈ members c, ∀ y ∈ members d, ¬overlapsP x y)
      (clusters (sortSpans spans)) ∧
    (∀ x y : Span,
      (∃ c ∈ clusters (sortSpans spans), x ∈ members c ∧ y ∈ members c) ↔
        (x ∈ spans ∧ y ∈ spans ∧ Relation.ReflTransGen (stepIn spans) x y)) ∧
    resolve prio spans = (clusters (sortSpans spans)).map (chooseWinner prio) ∧
    (∀ c ∈ clusters (sortSpans spans), chooseWinner prio c ∈ members c)

/-- The two guarantees of the Anonymization Rewriter on a resolved span set
(spec sections 4.7 and 8): the output length equals the source length plus
the sum of the per-span length deltas recorded in the audit, and every
source position lying outside all spans is copied verbatim, appearing in
the output at the position shifted by the accumulated deltas of the spans
already rewritten before it. -/
def RewriteAccounting {σ : Type} (params : AnonParams)
    (resolved : List (String × ResolvedOp σ)) (src : List Char)
    (spans : List Span) (st : σ) : Prop :=
  (((rewriteAux params resolved src spans 0 st).1.length : ℤ) =
      (src.length : ℤ) +
        ((rewriteAux params resolved src spans 0 st).2.1.map
          (fun a => (a.replLen : ℤ) - (a.origLen : ℤ))).sum) ∧
    ∀ p : Nat, p < src.length → (∀ sp ∈ spans, p < sp.start ∨ sp.endPos ≤ p) →
      ∃ k : Nat,
        (rewriteAux params resolved src spans 0 st).1[k]? = src[p]? ∧
          (k : ℤ) = (p : ℤ) +
            shiftSum (spans.zip
              ((rewriteAux params resolved src spans 0 st).2.1.map
                (fun a => a.replLen))) p

/-- The Boundary Trimmer contract of spec section 4.5: trimming is
idempotent; a span whose tokens are all stop words is dropped entirely; and
a surviving span keeps its start, entity type and score, recomputes its end
as start plus trimmed length, keeps a prefix of the original text whose
token list is the original one minus a dropped all-stop-word suffix, and
ends in a non-stop-word token. -/
def TrimSpec (sw : List (List Char)) (sp : Span) : Prop :=
  ((trimSpan sw sp).bind (trimSpan sw) = trimSpan sw sp) ∧
    ((∀ tk ∈ revTokens sp.text, isStopTok sw tk = true) → trimSpan sw sp = none) ∧
    ∀ sp', trimSpan sw sp = some sp' →
      sp'.start = sp.start ∧ sp'.endPos = sp.start + sp'.text.length ∧
        sp'.entity_type = sp.entity_type ∧ sp'.score = sp.score ∧
        (∃ w, sp.text = sp'.text ++ w) ∧
        (∃ ds, revTokens sp.text = ds ++ revTokens sp'.text ∧
          ∀ d ∈ ds, isStopTok sw d = true) ∧
        ∃ tk ts, revTokens sp'.text = tk :: ts ∧ isStopTok sw tk = false

/-- The local-recovery contract of the age-bracket operator (spec sections
4.7 and 7): with a well-resolved configuration the whole call returns ok,
the audit carries one entry per span, a span whose age-bracket text fails
to parse gets an audit warning with replacement length equal to original
length, and the operator itself returns the original text unchanged with
the warning flag set, leaving the custom state untouched. -/
def AgeBracketRecovery {σ : Type} (params : AnonParams)
    (cfg : List (String × OpSpec σ)) (resolved : List (String × ResolvedOp σ))
    (src : List Char) (spans : List Span) (st : σ) : Prop :=
  (rewrite params cfg src spans st =
      .ok (rewriteAux params resolved src spans 0 st)) ∧
    (rewriteAux params resolved src spans 0 st).2.1.length = spans.length ∧
    (∀ q ∈ spans.zip (rewriteAux params resolved src spans 0 st).2.1,
      lookupOp resolved q.1.entity_type = .builtin .ageBracket →
      parseAgeOrDate params.refYear q.1.text = none →
      q.2.warning = true ∧ q.2.replLen = q.1.text.length ∧
        q.2.origLen = q.1.text.length) ∧
    ∀ (st' : σ) (txt : List Char) (ty : String),
      parseAgeOrDate params.refYear txt = none →
      applyResolved params (.builtin .ageBracket) st' txt ty = (txt, true, st')

/-- A custom operator wrapped so that, besides computing its replacement
through g, it appends its argument pair to the state: the final state is
then the exact sequence of invocations the rewriter made. -/
def traceFn (g : List Char → String → List Char) :
    List (List Char × String) → List Char → String →
      List Char × List (List Char × String) :=
  fun st txt ty => (g txt ty, st ++ [(txt, ty)])

/-- The custom-operator contract (spec section 4.7, custom operator): with
every span's entity type resolving either to a built-in (b gives some) or
to the traced custom function (b gives none), the final state shows the
custom function invoked exactly once per custom-typed span in document
order, that invocation order is ascending by start whenever the spans are,
and each custom span's audit entry records the custom operator with g's
replacement length, the replacement being substituted verbatim. -/
def CustomOpContract (params : AnonParams)
    (resolved : List (String × ResolvedOp (List (List Char × String))))
    (g : List Char → String → List Char) (b : String → Option BuiltinOp)
    (src : List Char) (spans : List Span) (st : List (List Char × String)) :
    Prop :=
  ((rewriteAux params resolved src spans 0 st).2.2 =
      st ++ (spans.filter (fun sp => (b sp.entity_type).isNone)).map
        (fun sp => (sp.text, sp.entity_type))) ∧
    List.Pairwise startLE (spans.filter (fun sp => (b sp.entity_type).isNone)) ∧
    ∀ q ∈ spans.zip (rewriteAux params resolved src spans 0 st).2.1,
      b q.1.entity_type = none →
      q.2.replLen = (g q.1.text q.1.entity_type).length ∧ q.2.operator = "custom"

/-- Modelled from the spec: the EntityCounter example of the custom
operator documentation, a stateful counter keyed by entity type. -/
def bumpCount : List (String × Nat) → String → Nat × List (String × Nat)
  | [], ty => (1, [(ty, 1)])
  | (t, n) :: rest, ty =>
    if t = ty then (n + 1, (t, n + 1) :: rest)
    else ((bumpCount rest ty).1, (t, n) :: (bumpCount rest ty).2)

/-- The EntityCounter custom operator: replaces each entity occurrence with
its entity type and a per-type running count in angle brackets. -/
def entityCounter :
    List (String × Nat) → List Char → String → List Char × List (String × Nat) :=
  fun st _ ty =>
    ('<' :: ty.data ++ '_' :: (Nat.repr (bumpCount st ty).1).data ++ ['>'],
     (bumpCount st ty).2)

/-- The documentation scenario source text for the stateful counter. -/
def srcCounter : List Char := "John Smith and Jane Doe both live in Sydney.".data

/-- The resolved spans of the counter scenario: two PERSON names and one
LOCATION, in ascending start order. -/
def spansCounter : List Span :=
  [⟨0, 10, "PERSON", "John Smith".data, 1⟩,
   ⟨15, 23, "PERSON", "Jane Doe".data, 1⟩,
   ⟨37, 43, "LOCATION", "Sydney".data, 1⟩]

/-- The counter scenario configuration: both types use the counter. -/
def cfgCounter : List (String × OpSpec (List (String × Nat))) :=
  [("PERSON", OpSpec.fn entityCounter), ("LOCATION", OpSpec.fn entityCounter)]

/-- The mask scenario source text. -/
def srcEmail : List Char := "john.smith@example.com".data

/-- The mask scenario single resolved span covering the whole address. -/
def spanEmail : Span := ⟨0, 22, "EMAIL_ADDRESS", srcEmail, 1⟩

/-- The mask scenario configuration. -/
def cfgMask : List (String × OpSpec Unit) := [("EMAIL_ADDRESS", OpSpec.name "mask")]

lemma foldl_better_mem (prio : String → ℤ) :
    ∀ (l : List Span) (w : Span),
      l.foldl (fun w s => if better prio s w then s else w) w ∈ w :: l := by
  intro l
  induction l with
  | nil => intro w; simp
  | cons s l ih =>
    intro w
    simp only [List.foldl_cons]
    by_cases hb : better prio s w = true
    · rw [if_pos hb]
      exact List.mem_cons_of_mem _ (ih s)
    · rw [if_neg hb]
      rcases List.mem_cons.mp (ih w) with h | h
      · rw [h]; exact List.mem_cons_self _ _
      · exact List.mem_cons_of_mem _ (List.mem_cons_of_mem _ h)

lemma chooseWinner_mem (prio : String → ℤ) (c : Span × List Span) :
    chooseWinner prio c ∈ members c :=
  foldl_better_mem prio c.2 c.1

lemma clustersAux_spec :
    ∀ (pending : List Span) (h : Span) (acc : List Span) (m : Nat),
      List.Pairwise startLE pending →
      (∀ x ∈ h :: acc, ∀ p ∈ pending, x.start ≤ p.start) →
      (∀ x ∈ h :: acc, x.endPos ≤ m) →
      ((clustersAux pending h acc m).map members).flatten.Perm ((h :: acc) ++ pending) ∧
        List.Pairwise ClusterSep (clustersAux pending h acc m) := by
  intro pending
  induction pending with
  | nil =>
    intro h acc m _ _ _
    refine ⟨?_, by simp [clustersAux]⟩
    simp [clustersAux, members]
  | cons s rest ih =>
    intro h acc m hsort hstart hend
    have hs_rest : ∀ b ∈ rest, startLE s b := (List.pairwise_cons.mp hsort).1
    have hsort' : List.Pairwise startLE rest := (List.pairwise_cons.mp hsort).2
    by_cases hov : s.start < m
    · simp only [clustersAux, if_pos hov]
      have hstart' : ∀ x ∈ h :: s :: acc, ∀ p ∈ rest, x.start ≤ p.start := by
        intro x hx p hp
        rcases List.mem_cons.mp hx with rfl | hx
        · exact hstart x (List.mem_cons_self _ _) p (List.mem_cons_of_mem _ hp)
        · rcases List.mem_cons.mp hx with rfl | hx
          · exact hs_rest p hp
          · exact hstart x (List.mem_cons_of_mem _ hx) p (List.mem_cons_of_mem _ hp)
      have hend' : ∀ x ∈ h :: s :: acc, x.endPos ≤ max m s.endPos := by
        intro x hx
        rcases List.mem_cons.mp hx with rfl | hx
        · exact (hend x (List.mem_cons_self _ _)).trans (le_max_left _ _)
        · rcases List.mem_cons.mp hx with rfl | hx
          · exact le_max_right _ _
          · exact (hend x (List.mem_cons_of_mem _ hx)).trans (le_max_left _ _)
      obtain ⟨hperm, hpw⟩ := ih h (s :: acc) (max m s.endPos) hsort' hstart' hend'
      refine ⟨hperm.trans ?_, hpw⟩
      simp only [List.cons_append]
      exact (List.perm_middle.symm).cons h
    · simp only [clustersAux, if_neg hov]
      have hm_le : m ≤ s.start := not_lt.mp hov
      obtain ⟨hperm', hpw'⟩ := ih s [] s.endPos hsort'
        (by
          intro x hx p hp
          rcases List.mem_cons.mp hx with rfl | hx
          · exact hs_rest p hp
          · simp at hx)
        (by
          intro x hx
          rcases List.mem_cons.mp hx with rfl | hx
          · exact le_refl _
          · simp at hx)
      constructor
      · simpa [members] using (acc.reverse_perm.append hperm').cons h
      · refine List.pairwise_cons.mpr ⟨?_, hpw'⟩
        intro d hd x hx y hy
        have hx' : x ∈ h :: acc := by
          rcases List.mem_cons.mp hx with rfl | hx
          · exact List.mem_cons_self _ _
          · exact List.mem_cons_of_mem _ (List.mem_reverse.mp hx)
        have hy' : y ∈ s :: rest := by
          have hyj : y ∈ ((clustersAux rest s [] s.endPos).map members).flatten :=
            List.mem_flatten.mpr ⟨members d, List.mem_map_of_mem members hd, hy⟩
          simpa using hperm'.mem_iff.mp hyj
        have hsy : s.start ≤ y.start := by
          rcases List.mem_cons.mp hy' with rfl | hy'
          · exact le_refl _
          · exact hs_rest y hy'
        refine ⟨((hend x hx').trans hm_le).trans hsy, ?_⟩
        exact (hstart x hx' s (List.mem_cons_self _ _)).trans hsy

lemma clusters_spec (l : List Span) (hs : List.Pairwise startLE l) :
    ((clusters l).map members).flatten.Perm l ∧ List.Pairwise ClusterSep (clusters l) := by
  cases l with
  | nil => simp [clusters]
  | cons s rest =>
    have hres := clustersAux_spec rest s [] s.endPos (List.pairwise_cons.mp hs).2
      (by
        intro x hx p hp
        rcases List.mem_cons.mp hx with rfl | hx
        · exact (List.pairwise_cons.mp hs).1 p hp
        · simp at hx)
      (by
        intro x hx
        rcases List.mem_cons.mp hx with rfl | hx
        · exact le_refl _
        · simp at hx)
    simpa [clusters] using hres

/-- C1: for every priority table and every input list of candidate spans,
the output of the Overlap Resolver is sorted ascending by start, each
adjacent output pair satisfies endPos ≤ start of the next, and no two
output spans a, b satisfy a.start < b.endPos and b.start < a.endPos. -/
theorem resolve_sorted_nonoverlapping (prio : String → ℤ) (spans : List Span) :
    List.Pairwise startLE (resolve prio spans) ∧
      List.Chain' (fun a b => a.endPos ≤ b.start) (resolve prio spans) ∧
      List.Pairwise (fun a b => ¬(a.start < b.endPos ∧ b.start < a.endPos))
        (resolve prio spans) := by
  have hsorted : List.Pairwise startLE (sortSpans spans) :=
    List.sorted_insertionSort startLE spans
  obtain ⟨-, hpw⟩ := clusters_spec (sortSpans spans) hsorted
  have hw : List.Pairwise
      (fun c d => (chooseWinner prio c).endPos ≤ (chooseWinner prio d).start ∧
        (chooseWinner prio c).start ≤ (chooseWinner prio d).start)
      (clusters (sortSpans spans)) :=
    hpw.imp (fun hcd => hcd _ (chooseWinner_mem prio _) _ (chooseWinner_mem prio _))
  have hm : List.Pairwise (fun a b => a.endPos ≤ b.start ∧ a.start ≤ b.start)
      (resolve prio spans) := List.pairwise_map.mpr hw
  refine ⟨hm.imp (fun h => h.2), (hm.imp (fun h => h.1)).chain', ?_⟩
  exact hm.imp (fun h hc => absurd hc.2 (not_lt.mpr h.1))

lemma overlapsP_symm {a b : Span} (h : overlapsP a b) : overlapsP b a :=
  ⟨h.2, h.1⟩

lemma stepIn_symm {l : List Span} : Symmetric (stepIn l) :=
  fun _ _ h => ⟨h.2.1, h.1, overlapsP_symm h.2.2⟩

lemma reflTransGen_stepIn_mono {l l' : List Span} (hsub : ∀ x ∈ l, x ∈ l')
    {a b : Span} (h : Relation.ReflTransGen (stepIn l) a b) :
    Relation.ReflTransGen (stepIn l') a b :=
  Relation.ReflTransGen.mono
    (fun _ _ hs => ⟨hsub _ hs.1, hsub _ hs.2.1, hs.2.2⟩) h

lemma clustersAux_conn :
    ∀ (pending : List Span) (h : Span) (acc : List Span) (m : Nat),
      (∀ p ∈ pending, p.start < p.endPos) →
      List.Pairwise startLE pending →
      (∀ x ∈ h :: acc, ∀ p ∈ pending, x.start ≤ p.start) →
      (∀ x ∈ h :: acc, x.endPos ≤ m) →
      (∃ x ∈ h :: acc, x.endPos = m) →
      (∀ x ∈ h :: acc, Relation.ReflTransGen (stepIn (h :: acc)) h x) →
      ∀ c ∈ clustersAux pending h acc m, ∀ x ∈ members c,
        Relation.ReflTransGen (stepIn (members c)) c.1 x := by
  intro pending
  induction pending with
  | nil =>
    intro h acc m _ _ _ _ _ hconn c hc x hx
    simp only [clustersAux, List.mem_singleton] at hc
    subst hc
    have hsub : ∀ z ∈ h :: acc, z ∈ members (h, acc.reverse) := by
      intro z hz
      rcases List.mem_cons.mp hz with rfl | hz
      · exact List.mem_cons_self _ _
      · exact List.mem_cons_of_mem _ (List.mem_reverse.mpr hz)
    have hx' : x ∈ h :: acc := by
      rcases List.mem_cons.mp hx with rfl | hx
      · exact List.mem_cons_self _ _
      · exact List.mem_cons_of_mem _ (List.mem_reverse.mp hx)
    exact reflTransGen_stepIn_mono hsub (hconn x hx')
  | cons s rest ih =>
    intro h acc m hwf hsort hstart hend hatt hconn
    have hs_rest : ∀ b ∈ rest, startLE s b := (List.pairwise_cons.mp hsort).1
    have hsort' : List.Pairwise startLE rest := (List.pairwise_cons.mp hsort).2
    by_cases hov : s.start < m
    · simp only [clustersAux, if_pos hov]
      obtain ⟨x₀, hx₀, hx₀m⟩ := hatt
      have hsub : ∀ z ∈ h :: acc, z ∈ h :: s :: acc := by
        intro z hz
        rcases List.mem_cons.mp hz with rfl | hz
        · exact List.mem_cons_self _ _
        · exact List.mem_cons_of_mem _ (List.mem_cons_of_mem _ hz)
      apply ih h (s :: acc) (max m s.endPos)
        (fun p hp => hwf p (List.mem_cons_of_mem _ hp)) hsort'
      · intro x hx p hp
        rcases List.mem_cons.mp hx with rfl | hx
        · exact hstart x (List.mem_cons_self _ _) p (List.mem_cons_of_mem _ hp)
        · rcases List.mem_cons.mp hx with rfl | hx
          · exact hs_rest p hp
          · exact hstart x (List.mem_cons_of_mem _ hx) p (List.mem_cons_of_mem _ hp)
      · intro x hx
        rcases List.mem_cons.mp hx with rfl | hx
        · exact (hend x (List.mem_cons_self _ _)).trans (le_max_left _ _)
        · rcases List.mem_cons.mp hx with rfl | hx
          · exact le_max_right _ _
          · exact (hend x (List.mem_cons_of_mem _ hx)).trans (le_max_left _ _)
      · rcases le_total m s.endPos with hle | hle
        · exact ⟨s, by simp, (max_eq_right hle).symm ▸ rfl⟩
        · exact ⟨x₀, hsub x₀ hx₀, by rw [max_eq_left hle, hx₀m]⟩
      · intro x hx
        have hstep : stepIn (h :: s :: acc) x₀ s := by
          refine ⟨hsub x₀ hx₀, by simp, ?_, ?_⟩
          · exact lt_of_le_of_lt (hstart x₀ hx₀ s (List.mem_cons_self _ _))
              (hwf s (List.mem_cons_self _ _))
          · rw [hx₀m]; exact hov
        have hx₀chain : Relation.ReflTransGen (stepIn (h :: s :: acc)) h x₀ :=
          reflTransGen_stepIn_mono hsub (hconn x₀ hx₀)
        rcases List.mem_cons.mp hx with rfl | hx
        · exact Relation.ReflTransGen.refl
        · rcases List.mem_cons.mp hx with rfl | hx
          · exact hx₀chain.tail hstep
          · exact reflTransGen_stepIn_mono hsub (hconn x (List.mem_cons_of_mem _ hx))
    · simp only [clustersAux, if_neg hov]
      intro c hc x hx
      rcases List.mem_cons.mp hc with rfl | hc
      · have hsub : ∀ z ∈ h :: acc, z ∈ members (h, acc.reverse) := by
          intro z hz
          rcases List.mem_cons.mp hz with rfl | hz
          · exact List.mem_cons_self _ _
          · exact List.mem_cons_of_mem _ (List.mem_reverse.mpr hz)
        have hx' : x ∈ h :: acc := by
          rcases List.mem_cons.mp hx with rfl | hx
          · exact List.mem_cons_self _ _
          · exact List.mem_cons_of_mem _ (List.mem_reverse.mp hx)
        exact reflTransGen_stepIn_mono hsub (hconn x hx')
      · refine ih s [] s.endPos (fun p hp => hwf p (List.mem_cons_of_mem _ hp))
          hsort' ?_ ?_ ⟨s, List.mem_cons_self _ _, rfl⟩ ?_ c hc x hx
        · intro z hz p hp
          rcases List.mem_cons.mp hz with rfl | hz
          · exact hs_rest p hp
          · simp at hz
        · intro z hz
          rcases List.mem_cons.mp hz with rfl | hz
          · exact le_refl _
          · simp at hz
        · intro z hz
          rcases List.mem_cons.mp hz with rfl | hz
          · exact Relation.ReflTransGen.refl
          · simp at hz

lemma clusters_conn (l : List Span) (hwf : ∀ sp ∈ l, sp.start < sp.endPos)
    (hs : List.Pairwise startLE l) :
    ∀ c ∈ clusters l, ∀ x ∈ members c,
      Relation.ReflTransGen (stepIn (members c)) c.1 x := by
  cases l with
  | nil => intro c hc; simp [clusters] at hc
  | cons s rest =>
    refine clustersAux_conn rest s [] s.endPos
      (fun p hp => hwf p (List.mem_cons_of_mem _ hp))
      (List.pairwise_cons.mp hs).2 ?_ ?_ ⟨s, List.mem_cons_self _ _, rfl⟩ ?_
    · intro z hz p hp
      rcases List.mem_cons.mp hz with rfl | hz
      · exact (List.pairwise_cons.mp hs).1 p hp
      · simp at hz
    · intro z hz
      rcases List.mem_cons.mp hz with rfl | hz
      · exact le_refl _
      · simp at hz
    · intro z hz
      rcases List.mem_cons.mp hz with rfl | hz
      · exact Relation.ReflTransGen.refl
      · simp at hz

lemma pairwise_sep_closed :
    ∀ (cs : List (Span × List Span)), List.Pairwise ClusterSep cs →
      ∀ c ∈ cs, ∀ x ∈ members c, ∀ d ∈ cs, ∀ z ∈ members d,
        overlapsP x z → z ∈ members c := by
  intro cs
  induction cs with
  | nil => intro _ c hc; simp at hc
  | cons c₀ rest ih =>
    intro hpw c hc x hx d hd z hz hov
    obtain ⟨hsep, hpw'⟩ := List.pairwise_cons.mp hpw
    rcases List.mem_cons.mp hc with hceq | hcr
    · subst hceq
      rcases List.mem_cons.mp hd with hdeq | hdr
      · subst hdeq; exact hz
      · exact absurd hov.2 (not_lt.mpr ((hsep d hdr x hx z hz).1))
    · rcases List.mem_cons.mp hd with hdeq | hdr
      · subst hdeq
        exact absurd hov.1 (not_lt.mpr ((hsep c hcr z hz x hx).1))
      · exact ih hpw' c hcr x hx d hdr z hz hov

/-- C3: the Overlap Resolver groups the candidates into clusters that are
exactly the connected components of the pairwise overlap relation
(transitively closed, so a chain A-B-C is one cluster even when A and C do
not overlap each other), and selects exactly one winning span per cluster,
discarding the rest. -/
theorem resolver_connected_components (prio : String → ℤ) (spans : List Span)
    (hwf : ∀ sp ∈ spans, sp.start < sp.endPos) :
    ResolveClusterSpec prio spans := by
  have hsorted : List.Pairwise startLE (sortSpans spans) :=
    List.sorted_insertionSort startLE spans
  have hperm0 : (sortSpans spans).Perm spans := List.perm_insertionSort startLE spans
  obtain ⟨hperm, hpw⟩ := clusters_spec (sortSpans spans) hsorted
  have hflat : ((clusters (sortSpans spans)).map members).flatten.Perm spans := by
    simpa using hperm.trans hperm0
  have hmem_spans : ∀ c ∈ clusters (sortSpans spans), ∀ z ∈ members c, z ∈ spans := by
    intro c hc z hz
    exact hflat.mem_iff.mp
      (List.mem_flatten.mpr ⟨members c, List.mem_map_of_mem members hc, hz⟩)
  have hcover : ∀ z ∈ spans, ∃ d ∈ clusters (sortSpans spans), z ∈ members d := by
    intro z hz
    obtain ⟨ml, hml, hzml⟩ := List.mem_flatten.mp (hflat.mem_iff.mpr hz)
    obtain ⟨d, hd, rfl⟩ := List.mem_map.mp hml
    exact ⟨d, hd, hzml⟩
  have hconn := clusters_conn (sortSpans spans)
    (fun sp hsp => hwf sp (hperm0.mem_iff.mp hsp)) hsorted
  have hany : ∀ c ∈ clusters (sortSpans spans), ∀ x ∈ members c, ∀ y ∈ members c,
      Relation.ReflTransGen (stepIn (members c)) x y := by
    intro c hc x hx y hy
    exact ((Relation.ReflTransGen.symmetric stepIn_symm) (hconn c hc x hx)).trans
      (hconn c hc y hy)
  refine ⟨hflat, hany, ?_, ?_, rfl, fun c _ => chooseWinner_mem prio c⟩
  · exact hpw.imp (fun hcd x hxc y hyd hov =>
      absurd hov.2 (not_lt.mpr (hcd x hxc y hyd).1))
  · intro x y
    constructor
    · rintro ⟨c, hc, hx, hy⟩
      exact ⟨hmem_spans c hc x hx, hmem_spans c hc y hy,
        reflTransGen_stepIn_mono (hmem_spans c hc) (hany c hc x hx y hy)⟩
    · rintro ⟨hxs, hys, hchain⟩
      obtain ⟨c, hc, hx⟩ := hcover x hxs
      refine ⟨c, hc, hx, ?_⟩
      clear hys
      induction hchain with
      | refl => exact hx
      | tail hab hbc ihab =>
        obtain ⟨d, hd, hzd⟩ := hcover _ hbc.2.1
        exact pairwise_sep_closed _ hpw c hc _ ihab d hd _ hzd hbc.2.2

lemma resolve_two (prio : String → ℤ) (x y : Span) (hov : overlapsP x y) :
    resolve prio [x, y] =
      if startLE x y then [if better prio y x then y else x]
      else [if better prio x y then x else y] := by
  by_cases hxy : startLE x y
  · rw [if_pos hxy]
    have hsort : sortSpans [x, y] = [x, y] := by
      simp [sortSpans, List.insertionSort, List.orderedInsert, hxy]
    unfold resolve
    rw [hsort]
    simp [clusters, clustersAux, hov.2, chooseWinner]
  · rw [if_neg hxy]
    have hsort : sortSpans [x, y] = [y, x] := by
      simp [sortSpans, List.insertionSort, List.orderedInsert, hxy]
    unfold resolve
    rw [hsort]
    simp [clusters, clustersAux, hov.1, chooseWinner]

lemma resolve_pair_both (prio : String → ℤ) (a b : Span) (hov : overlapsP a b)
    (hba : better prio b a = false) (hab : better prio a b = true) :
    resolve prio [a, b] = [a] ∧ resolve prio [b, a] = [a] := by
  constructor
  · rw [resolve_two prio a b hov]
    by_cases h : startLE a b
    · rw [if_pos h, hba]; simp
    · rw [if_neg h, hab]; simp
  · rw [resolve_two prio b a (overlapsP_symm hov)]
    by_cases h : startLE b a
    · rw [if_pos h, hab]; simp
    · rw [if_neg h, hba]; simp

/-- C4: between two overlapping candidate spans the resolver is independent
of input order and follows the tie-break chain of section 4.6: with
different entity types, equal scores and equal lengths the higher
configured priority wins in both input orders; with priorities tied a
higher score wins; then a longer span; then the earlier start. -/
theorem resolve_priority_tiebreak (prio : String → ℤ) (a b : Span)
    (hov : overlapsP a b) :
    (a.entity_type ≠ b.entity_type → a.score = b.score → spanLen a = spanLen b →
        prio b.entity_type < prio a.entity_type →
        resolve prio [a, b] = [a] ∧ resolve prio [b, a] = [a]) ∧
      (prio a.entity_type = prio b.entity_type → b.score < a.score →
        resolve prio [a, b] = [a] ∧ resolve prio [b, a] = [a]) ∧
      (prio a.entity_type = prio b.entity_type → a.score = b.score →
        spanLen b < spanLen a →
        resolve prio [a, b] = [a] ∧ resolve prio [b, a] = [a]) ∧
      (prio a.entity_type = prio b.entity_type → a.score = b.score →
        spanLen a = spanLen b → a.start < b.start →
        resolve prio [a, b] = [a] ∧ resolve prio [b, a] = [a]) := by
  refine ⟨?_, ?_, ?_, ?_⟩
  · intro _ _ _ hp
    refine resolve_pair_both prio a b hov ?_ ?_
    · unfold better
      rw [if_neg (ne_of_lt hp)]
      exact decide_eq_false (not_lt.mpr hp.le)
    · unfold better
      rw [if_neg (ne_of_gt hp)]
      exact decide_eq_true hp
  · intro hpe hs
    refine resolve_pair_both prio a b hov ?_ ?_
    · unfold better
      rw [if_pos hpe.symm, if_neg (ne_of_lt hs)]
      exact decide_eq_false (not_lt.mpr hs.le)
    · unfold better
      rw [if_pos hpe, if_neg (ne_of_gt hs)]
      exact decide_eq_true hs
  · intro hpe hse hl
    refine resolve_pair_both prio a b hov ?_ ?_
    · unfold better
      rw [if_pos hpe.symm, if_pos hse.symm, if_neg (ne_of_lt hl)]
      exact decide_eq_false (not_lt.mpr hl.le)
    · unfold better
      rw [if_pos hpe, if_pos hse, if_neg (ne_of_gt hl)]
      exact decide_eq_true hl
  · intro hpe hse hle hst
    refine resolve_pair_both prio a b hov ?_ ?_
    · unfold better
      rw [if_pos hpe.symm, if_pos hse.symm, if_pos hle.symm]
      exact decide_eq_false (not_lt.mpr hst.le)
    · unfold better
      rw [if_pos hpe, if_pos hse, if_pos hle]
      exact decide_eq_true hst

lemma chain_shift (a : Span) (l : List Span) :
    List.Chain (fun x b => x.endPos ≤ b.start) a l ↔ ResolvedFrom a.endPos l := by
  cases l with
  | nil => simp [ResolvedFrom]
  | cons b l' => simp [ResolvedFrom, List.chain_cons, sentinel]

lemma resolvedFrom_cons {cursor : Nat} {sp : Span} {rest : List Span}
    (h : ResolvedFrom cursor (sp :: rest)) :
    cursor ≤ sp.start ∧ ResolvedFrom sp.endPos rest := by
  rw [ResolvedFrom, List.chain_cons] at h
  exact ⟨h.1, (chain_shift sp rest).mp h.2⟩

lemma resolvedFrom_start_le {src : List Char} :
    ∀ {spans : List Span} {c : Nat}, ResolvedFrom c spans →
      (∀ sp ∈ spans, SpanWF src sp) → ∀ sp ∈ spans, c ≤ sp.start := by
  intro spans
  induction spans with
  | nil => intro c _ _ sp hsp; simp at hsp
  | cons s rest ih =>
    intro c hres hwf sp hsp
    obtain ⟨hc, hres'⟩ := resolvedFrom_cons hres
    rcases List.mem_cons.mp hsp with rfl | hsp
    · exact hc
    · exact le_trans (hc.trans (hwf s (List.mem_cons_self _ _)).1.le)
        (ih hres' (fun x hx => hwf x (List.mem_cons_of_mem _ hx)) sp hsp)

lemma gap_length {src : List Char} {a b : Nat} (hb : b ≤ src.length) :
    ((src.take b).drop a).length = b - a := by
  simp [Nat.min_eq_left hb]

lemma take_drop_join {src : List Char} {a b : Nat} (hab : a ≤ b)
    (hb : b ≤ src.length) :
    (src.take b).drop a ++ src.drop b = src.drop a := by
  conv_rhs => rw [← List.take_append_drop b src]
  rw [List.drop_append_of_le_length]
  simpa [Nat.min_eq_left hb] using hab

lemma getElem?_append_left' {α : Type} (l l' : List α) {n : Nat}
    (h : n < l.length) : (l ++ l')[n]? = l[n]? := by
  simp [List.getElem?_append, h]

lemma getElem?_append_right' {α : Type} (l l' : List α) {n : Nat}
    (h : l.length ≤ n) : (l ++ l')[n]? = l'[n - l.length]? := by
  simp [List.getElem?_append, Nat.not_lt.mpr h]

lemma shiftSum_zero {pairs : List (Span × Nat)} {p : Nat}
    (h : ∀ q ∈ pairs, ¬q.1.endPos ≤ p) : shiftSum pairs p = 0 := by
  unfold shiftSum
  rw [List.filter_eq_nil_iff.mpr (by intro q hq; simpa using h q hq)]
  simp

lemma shiftSum_cons_pos {sp : Span} {r : Nat} {pairs : List (Span × Nat)}
    {p : Nat} (h : sp.endPos ≤ p) :
    shiftSum ((sp, r) :: pairs) p =
      ((r : ℤ) - ((sp.endPos - sp.start : Nat) : ℤ)) + shiftSum pairs p := by
  simp [shiftSum, List.filter_cons, h]

lemma shiftSum_cons_neg {sp : Span} {r : Nat} {pairs : List (Span × Nat)}
    {p : Nat} (h : ¬sp.endPos ≤ p) :
    shiftSum ((sp, r) :: pairs) p = shiftSum pairs p := by
  simp [shiftSum, List.filter_cons, h]

lemma rewriteAux_length {σ : Type} (params : AnonParams)
    (resolved : List (String × ResolvedOp σ)) (src : List Char) :
    ∀ (spans : List Span) (cursor : Nat) (st : σ),
      cursor ≤ src.length → ResolvedFrom cursor spans →
      (∀ sp ∈ spans, SpanWF src sp) →
      ((rewriteAux params resolved src spans cursor st).1.length : ℤ) =
        ((src.length - cursor : Nat) : ℤ) +
          ((rewriteAux params resolved src spans cursor st).2.1.map
            (fun a => (a.replLen : ℤ) - (a.origLen : ℤ))).sum := by
  intro spans
  induction spans with
  | nil => intro cursor st _ _ _; simp [rewriteAux]
  | cons sp rest ih =>
    intro cursor st hcur hres hwf
    obtain ⟨hc, hres'⟩ := resolvedFrom_cons hres
    obtain ⟨hse, hsl, htxt⟩ := hwf sp (List.mem_cons_self _ _)
    have hwf' : ∀ x ∈ rest, SpanWF src x :=
      fun x hx => hwf x (List.mem_cons_of_mem _ hx)
    have hstart_le : sp.start ≤ src.length := hse.le.trans hsl
    have htl : sp.text.length = sp.endPos - sp.start := by
      rw [htxt]; exact gap_length hsl
    have hgl : ((src.take sp.start).drop cursor).length = sp.start - cursor :=
      gap_length hstart_le
    have ihx := ih sp.endPos
      (applyResolved params (lookupOp resolved sp.entity_type) st sp.text
        sp.entity_type).2.2 hsl hres' hwf'
    simp only [rewriteAux, List.length_append, List.map_cons, List.sum_cons, hgl, htl]
    omega

lemma rewriteAux_outside {σ : Type} (params : AnonParams)
    (resolved : List (String × ResolvedOp σ)) (src : List Char) :
    ∀ (spans : List Span) (cursor : Nat) (st : σ),
      ResolvedFrom cursor spans → (∀ sp ∈ spans, SpanWF src sp) →
      ∀ p : Nat, cursor ≤ p → p < src.length →
        (∀ sp ∈ spans, p < sp.start ∨ sp.endPos ≤ p) →
        ∃ k : Nat,
          (rewriteAux params resolved src spans cursor st).1[k]? = src[p]? ∧
            (k : ℤ) = (p : ℤ) - (cursor : ℤ) +
              shiftSum (spans.zip
                ((rewriteAux params resolved src spans cursor st).2.1.map
                  (fun a => a.replLen))) p := by
  intro spans
  induction spans with
  | nil =>
    intro cursor st _ _ p hcp _ _
    refine ⟨p - cursor, ?_, ?_⟩
    · simp only [rewriteAux]
      rw [List.getElem?_drop]
      congr 1
      omega
    · simp [shiftSum]
      omega
  | cons sp rest ih =>
    intro cursor st hres hwf p hcp hplen hout
    obtain ⟨hc, hres'⟩ := resolvedFrom_cons hres
    obtain ⟨hse, hsl, htxt⟩ := hwf sp (List.mem_cons_self _ _)
    have hwf' : ∀ x ∈ rest, SpanWF src x :=
      fun x hx => hwf x (List.mem_cons_of_mem _ hx)
    have hstart_le : sp.start ≤ src.length := hse.le.trans hsl
    have hgl : ((src.take sp.start).drop cursor).length = sp.start - cursor :=
      gap_length hstart_le
    rcases hout sp (List.mem_cons_self _ _) with hp1 | hp2
    · -- p lies in the gap before sp
      refine ⟨p - cursor, ?_, ?_⟩
      · simp only [rewriteAux]
        rw [List.append_assoc, getElem?_append_left' _ _ (by omega),
          List.getElem?_drop, List.getElem?_take,
          if_pos (show cursor + (p - cursor) < sp.start by omega)]
        congr 1
        omega
      · have hz : shiftSum ((sp :: rest).zip
            (((rewriteAux params resolved src (sp :: rest) cursor st).2.1).map
              (fun a => a.replLen))) p = 0 := by
          apply shiftSum_zero
          intro q hq
          have hq1 := (List.of_mem_zip hq).1
          rcases List.mem_cons.mp hq1 with heq | hq1
          · rw [heq]; omega
          · have h1 : sp.endPos ≤ q.1.start :=
              resolvedFrom_start_le hres' hwf' q.1 hq1
            have h2 : q.1.start < q.1.endPos := (hwf' q.1 hq1).1
            omega
        rw [hz]
        omega
    · -- p lies past sp: use the induction hypothesis
      obtain ⟨k', hk'get, hk'eq⟩ := ih sp.endPos
        (applyResolved params (lookupOp resolved sp.entity_type) st sp.text
          sp.entity_type).2.2 hres' hwf' p hp2 hplen
        (fun x hx => hout x (List.mem_cons_of_mem _ hx))
      refine ⟨(sp.start - cursor) +
        ((applyResolved params (lookupOp resolved sp.entity_type) st sp.text
          sp.entity_type).1.length + k'), ?_, ?_⟩
      · simp only [rewriteAux]
        rw [List.append_assoc]
        rw [getElem?_append_right' _ _ (by rw [hgl]; exact Nat.le_add_right _ _)]
        rw [hgl, Nat.add_sub_cancel_left]
        rw [getElem?_append_right' _ _ (Nat.le_add_right _ _),
          Nat.add_sub_cancel_left]
        exact hk'get
      · simp only [rewriteAux, List.map_cons, List.zip_cons_cons]
        rw [shiftSum_cons_pos hp2]
        omega

/-- C2: for every source text, resolved span set and operator configuration
(after name resolution, so including custom operators and any state), the
rewriter output length equals the source length plus the sum over spans of
replacement length minus original length, and every source position outside
the spans is copied verbatim into the output at its delta-shifted offset. -/
theorem rewrite_length_accounting {σ : Type} (params : AnonParams)
    (resolved : List (String × ResolvedOp σ)) (src : List Char)
    (spans : List Span) (st : σ) (hres : ResolvedFrom 0 spans)
    (hwf : ∀ sp ∈ spans, SpanWF src sp) :
    RewriteAccounting params resolved src spans st := by
  constructor
  · have := rewriteAux_length params resolved src spans 0 st (Nat.zero_le _) hres hwf
    simpa using this
  · intro p hp hout
    have := rewriteAux_outside params resolved src spans 0 st hres hwf p
      (Nat.zero_le _) hp hout
    simpa using this

lemma rewriteAux_keep {σ : Type} (params : AnonParams)
    (resolved : List (String × ResolvedOp σ)) (src : List Char) :
    ∀ (spans : List Span) (cursor : Nat) (st : σ),
      cursor ≤ src.length → ResolvedFrom cursor spans →
      (∀ sp ∈ spans, SpanWF src sp) →
      (∀ sp ∈ spans, lookupOp resolved sp.entity_type = .builtin .keep) →
      rewriteAux params resolved src spans cursor st =
        (src.drop cursor, spans.map keepAudit, st) := by
  intro spans
  induction spans with
  | nil => intro cursor st _ _ _ _; simp [rewriteAux]
  | cons sp rest ih =>
    intro cursor st hcur hres hwf hk
    obtain ⟨hc, hres'⟩ := resolvedFrom_cons hres
    obtain ⟨hse, hsl, htxt⟩ := hwf sp (List.mem_cons_self _ _)
    have hkeep := hk sp (List.mem_cons_self _ _)
    have ihx := ih sp.endPos st hsl hres'
      (fun x hx => hwf x (List.mem_cons_of_mem _ hx))
      (fun x hx => hk x (List.mem_cons_of_mem _ hx))
    have htext : (src.take sp.start).drop cursor ++ sp.text ++ src.drop sp.endPos =
        src.drop cursor := by
      rw [htxt, List.append_assoc, take_drop_join hse.le hsl,
        take_drop_join hc (hse.le.trans hsl)]
    simp only [rewriteAux, hkeep, applyResolved, applyBuiltin, resolvedOpName, opName,
      ihx, List.map_cons, keepAudit, htext]

/-- C6: anonymizing with the operator for every involved entity type set to
keep returns the source text unchanged, the custom state untouched, and an
audit trail listing every resolved span with replacement length equal to
original length (zero length delta). -/
theorem rewrite_keep_roundtrip {σ : Type} (params : AnonParams)
    (cfg : List (String × OpSpec σ)) (resolved : List (String × ResolvedOp σ))
    (src : List Char) (spans : List Span) (st : σ)
    (hr : resolveConfig params cfg = .ok resolved)
    (hres : ResolvedFrom 0 spans) (hwf : ∀ sp ∈ spans, SpanWF src sp)
    (hk : ∀ sp ∈ spans, lookupOp resolved sp.entity_type = .builtin .keep) :
    rewrite params cfg src spans st = .ok (src, spans.map keepAudit, st) ∧
      ∀ a ∈ spans.map keepAudit, a.replLen = a.origLen := by
  constructor
  · have hx := rewriteAux_keep params resolved src spans 0 st (Nat.zero_le _) hres hwf hk
    unfold rewrite
    rw [hr]
    simp [hx]
  · intro a ha
    obtain ⟨sp, -, rfl⟩ := List.mem_map.mp ha
    rfl

lemma resolveConfig_error {σ : Type} (params : AnonParams) :
    ∀ cfg : List (String × OpSpec σ),
      (∃ t n, (t, OpSpec.name n) ∈ cfg ∧ parseOpName n = none) →
      ∃ e, resolveConfig params cfg = .error e := by
  intro cfg
  induction cfg with
  | nil => rintro ⟨t, n, hmem, -⟩; simp at hmem
  | cons entry rest ih =>
    rintro ⟨t, n, hmem, hparse⟩
    rcases List.mem_cons.mp hmem with heq | hmem
    · rw [← heq]
      refine ⟨"Unknown operator: " ++ n, ?_⟩
      simp only [resolveConfig, hparse]
    · obtain ⟨e, he⟩ := ih ⟨t, n, hmem, hparse⟩
      rcases entry with ⟨t', spec⟩
      cases spec with
      | fn f => exact ⟨e, by simp only [resolveConfig, he]⟩
      | name n' =>
        cases hpn : parseOpName n' with
        | none => exact ⟨"Unknown operator: " ++ n', by simp only [resolveConfig, hpn]⟩
        | some op =>
          by_cases henc : op = .encrypt ∧ params.encryptKey = none
          · exact ⟨"Missing encryption key for encrypt operator",
              by simp only [resolveConfig, hpn]; rw [if_pos henc]⟩
          · exact ⟨e, by simp only [resolveConfig, hpn]; rw [if_neg henc, he]⟩

/-- C7: an anonymization call whose configuration maps some entity type to
an unrecognized operator name fails whole with a configuration error at
call time; no output text is produced and the error is never degraded into
a fallback. -/
theorem rewrite_unknown_operator_fails {σ : Type} (params : AnonParams)
    (cfg : List (String × OpSpec σ)) (src : List Char) (spans : List Span)
    (st : σ) (h : ∃ t n, (t, OpSpec.name n) ∈ cfg ∧ parseOpName n = none) :
    ∃ e, rewrite params cfg src spans st = .error e := by
  obtain ⟨e, he⟩ := resolveConfig_error params cfg h
  exact ⟨e, by unfold rewrite; rw [he]⟩

lemma applyBuiltin_age_fail (params : AnonParams) {txt : List Char}
    (ty : String) (h : parseAgeOrDate params.refYear txt = none) :
    applyBuiltin params .ageBracket txt ty = (txt, true) := by
  simp [applyBuiltin, ageBracketText, h]

lemma rewriteAux_audit_length {σ : Type} (params : AnonParams)
    (resolved : List (String × ResolvedOp σ)) (src : List Char) :
    ∀ (spans : List Span) (cursor : Nat) (st : σ),
      (rewriteAux params resolved src spans cursor st).2.1.length = spans.length := by
  intro spans
  induction spans with
  | nil => intro cursor st; simp [rewriteAux]
  | cons sp rest ih => intro cursor st; simp [rewriteAux, ih]

lemma rewriteAux_age_audit {σ : Type} (params : AnonParams)
    (resolved : List (String × ResolvedOp σ)) (src : List Char) :
    ∀ (spans : List Span) (cursor : Nat) (st : σ),
      ∀ q ∈ spans.zip (rewriteAux params resolved src spans cursor st).2.1,
        lookupOp resolved q.1.entity_type = .builtin .ageBracket →
        parseAgeOrDate params.refYear q.1.text = none →
        q.2.warning = true ∧ q.2.replLen = q.1.text.length ∧
          q.2.origLen = q.1.text.length := by
  intro spans
  induction spans with
  | nil => intro cursor st q hq; simp [rewriteAux] at hq
  | cons sp rest ih =>
    intro cursor st q hq hop hfail
    simp only [rewriteAux, List.zip_cons_cons] at hq
    rcases List.mem_cons.mp hq with heq | hq
    · subst heq
      simp only at hop hfail ⊢
      rw [hop]
      simp [applyResolved, applyBuiltin_age_fail params _ hfail]
    · exact ih sp.endPos
        (applyResolved params (lookupOp resolved sp.entity_type) st sp.text
          sp.entity_type).2.2 q hq hop hfail

/-- C8: a per-span age-bracket parse failure is recovered locally: the call
still returns ok, the audit lists one entry per span, the failing span's
entry carries a warning with a zero length delta, and the operator returns
the span's original text unmodified; the document is never aborted. -/
theorem age_bracket_parse_failure_recovery {σ : Type} (params : AnonParams)
    (cfg : List (String × OpSpec σ)) (resolved : List (String × ResolvedOp σ))
    (src : List Char) (spans : List Span) (st : σ)
    (hr : resolveConfig params cfg = .ok resolved) :
    AgeBracketRecovery params cfg resolved src spans st := by
  refine ⟨by unfold rewrite; rw [hr], rewriteAux_audit_length params resolved src spans 0 st, ?_, ?_⟩
  · exact rewriteAux_age_audit params resolved src spans 0 st
  · intro st' txt ty hfail
    simp [applyResolved, applyBuiltin_age_fail params ty hfail]

/-- C9: anonymizing john.smith@example.com, tagged EMAIL_ADDRESS as a
single resolved span, with the mask operator produces an output of exactly
the input's length in which the at sign stays at position 10 and the dots
stay at positions 4 and 18, their original positions. -/
theorem mask_email_structure :
    Except.map (fun r => (r.1.length, r.1[4]?, r.1[10]?, r.1[18]?))
        (rewrite defaultParams cfgMask srcEmail [spanEmail] ()) =
      .ok (srcEmail.length, some '.', some '@', some '.') ∧
      srcEmail[4]? = some '.' ∧ srcEmail[10]? = some '@' ∧
      srcEmail[18]? = some '.' ∧ srcEmail.length = 22 :=
  ⟨rfl, rfl, rfl, rfl, rfl⟩

lemma rewriteAux_trace (params : AnonParams)
    (resolved : List (String × ResolvedOp (List (List Char × String))))
    (g : List Char → String → List Char) (b : String → Option BuiltinOp)
    (src : List Char) :
    ∀ (spans : List Span) (cursor : Nat) (st : List (List Char × String)),
      (∀ sp ∈ spans, lookupOp resolved sp.entity_type =
        (match b sp.entity_type with
         | some op => ResolvedOp.builtin op
         | none => ResolvedOp.custom (traceFn g))) →
      (rewriteAux params resolved src spans cursor st).2.2 =
        st ++ (spans.filter (fun sp => (b sp.entity_type).isNone)).map
          (fun sp => (sp.text, sp.entity_type)) := by
  intro spans
  induction spans with
  | nil => intro cursor st _; simp [rewriteAux]
  | cons sp rest ih =>
    intro cursor st hlok
    have hhead := hlok sp (List.mem_cons_self _ _)
    have htail := fun x hx => hlok x (List.mem_cons_of_mem _ hx)
    cases hb : b sp.entity_type with
    | some op =>
      rw [hb] at hhead
      simp only [rewriteAux, hhead, applyResolved, List.filter_cons]
      rw [ih sp.endPos st htail]
      simp [hb]
    | none =>
      rw [hb] at hhead
      simp only [rewriteAux, hhead, applyResolved, traceFn, List.filter_cons]
      rw [ih sp.endPos (st ++ [(sp.text, sp.entity_type)]) htail]
      simp [hb]

lemma rewriteAux_custom_audit (params : AnonParams)
    (resolved : List (String × ResolvedOp (List (List Char × String))))
    (g : List Char → String → List Char) (b : String → Option BuiltinOp)
    (src : List Char) :
    ∀ (spans : List Span) (cursor : Nat) (st : List (List Char × String)),
      (∀ sp ∈ spans, lookupOp resolved sp.entity_type =
        (match b sp.entity_type with
         | some op => ResolvedOp.builtin op
         | none => ResolvedOp.custom (traceFn g))) →
      ∀ q ∈ spans.zip (rewriteAux params resolved src spans cursor st).2.1,
        b q.1.entity_type = none →
        q.2.replLen = (g q.1.text q.1.entity_type).length ∧
          q.2.operator = "custom" := by
  intro spans
  induction spans with
  | nil => intro cursor st _ q hq; simp [rewriteAux] at hq
  | cons sp rest ih =>
    intro cursor st hlok q hq hb
    have hhead := hlok sp (List.mem_cons_self _ _)
    have htail := fun x hx => hlok x (List.mem_cons_of_mem _ hx)
    simp only [rewriteAux, List.zip_cons_cons] at hq
    rcases List.mem_cons.mp hq with heq | hq
    · subst heq
      simp only at hb ⊢
      rw [hb] at hhead
      rw [hhead]
      simp [applyResolved, traceFn, resolvedOpName]
    · exact ih sp.endPos
        (applyResolved params (lookupOp resolved sp.entity_type) st sp.text
          sp.entity_type).2.2 htail q hq hb

/-- C10: a user-supplied custom operator is invoked exactly once per
resolved span of its types, in ascending start order over the document, and
its return value is substituted verbatim, so the stateful EntityCounter of
the documentation numbers entities left to right, producing PERSON_1 then
PERSON_2 then LOCATION_1 with final counts PERSON 2 and LOCATION 1. -/
theorem custom_operator_invocations (params : AnonParams)
    (resolved : List (String × ResolvedOp (List (List Char × String))))
    (g : List Char → String → List Char) (b : String → Option BuiltinOp)
    (src : List Char) (spans : List Span) (st : List (List Char × String))
    (hlok : ∀ sp ∈ spans, lookupOp resolved sp.entity_type =
      (match b sp.entity_type with
       | some op => ResolvedOp.builtin op
       | none => ResolvedOp.custom (traceFn g)))
    (hsorted : List.Pairwise startLE spans) :
    CustomOpContract params resolved g b src spans st ∧
      Except.map (fun r => (r.1, r.2.2))
          (rewrite defaultParams cfgCounter srcCounter spansCounter []) =
        .ok ("<PERSON_1> and <PERSON_2> both live in <LOCATION_1>.".data,
          [("PERSON", 2), ("LOCATION", 1)]) := by
  refine ⟨⟨rewriteAux_trace params resolved g b src spans 0 st hlok, ?_,
    rewriteAux_custom_audit params resolved g b src spans 0 st hlok⟩, rfl⟩
  exact hsorted.filter _

lemma trimGo_cons_nonws {sw : List (List Char)} {c : Char} {r cur : List Char}
    (hc : isWsChar c = false) :
    trimGo sw (c :: r) cur = trimGo sw r (c :: cur) := by
  simp [trimGo, hc]

lemma revTokensGo_cons_nonws {c : Char} {r cur : List Char}
    (hc : isWsChar c = false) :
    revTokensGo (c :: r) cur = revTokensGo r (c :: cur) := by
  simp [revTokensGo, hc]

lemma trimGo_nonws (sw : List (List Char)) :
    ∀ (a z cur : List Char), (∀ x ∈ a, isWsChar x = false) →
      trimGo sw (a ++ z) cur = trimGo sw z (a.reverse ++ cur) := by
  intro a
  induction a with
  | nil => intro z cur _; simp
  | cons c a' ih =>
    intro z cur hnw
    have hc : isWsChar c = false := hnw c (List.mem_cons_self _ _)
    rw [List.cons_append, trimGo_cons_nonws hc,
      ih z (c :: cur) (fun x hx => hnw x (List.mem_cons_of_mem _ hx)),
      List.reverse_cons, List.append_assoc, List.singleton_append]

lemma revTokensGo_nonws :
    ∀ (a z cur : List Char), (∀ x ∈ a, isWsChar x = false) →
      revTokensGo (a ++ z) cur = revTokensGo z (a.reverse ++ cur) := by
  intro a
  induction a with
  | nil => intro z cur _; simp
  | cons c a' ih =>
    intro z cur hnw
    have hc : isWsChar c = false := hnw c (List.mem_cons_self _ _)
    rw [List.cons_append, revTokensGo_cons_nonws hc,
      ih z (c :: cur) (fun x hx => hnw x (List.mem_cons_of_mem _ hx)),
      List.reverse_cons, List.append_assoc, List.singleton_append]

lemma trimGo_restart (sw : List (List Char)) :
    ∀ (r cur s : List Char), (∀ x ∈ cur, isWsChar x = false) →
      trimGo sw r cur = some s → trimGo sw s.reverse [] = some s := by
  intro r
  induction r with
  | nil =>
    intro cur s hnw h
    by_cases hc : cur = []
    · simp [trimGo, hc] at h
    · by_cases hst : isStopTok sw cur = true
      · simp [trimGo, hc, hst] at h
      · have hval : trimGo sw [] cur = some cur := by simp [trimGo, hc, hst]
        rw [hval] at h
        obtain rfl : cur = s := by simpa using h
        have hnw' : ∀ x ∈ cur.reverse, isWsChar x = false :=
          fun x hx => hnw x (List.mem_reverse.mp hx)
        have hgo := trimGo_nonws sw cur.reverse [] [] hnw'
        simp only [List.append_nil, List.reverse_reverse] at hgo
        rw [hgo, hval]
  | cons c rest ih =>
    intro cur s hnw h
    by_cases hw : isWsChar c = true
    · by_cases hc : cur = []
      · have hval : trimGo sw (c :: rest) cur = trimGo sw rest [] := by
          simp [trimGo, hw, hc]
        rw [hval] at h
        exact ih [] s (by simp) h
      · by_cases hst : isStopTok sw cur = true
        · have hval : trimGo sw (c :: rest) cur = trimGo sw rest [] := by
            simp [trimGo, hw, hc, hst]
          rw [hval] at h
          exact ih [] s (by simp) h
        · have hval : trimGo sw (c :: rest) cur = some (rest.reverse ++ c :: cur) := by
            simp [trimGo, hw, hc, hst]
          rw [hval] at h
          obtain rfl : rest.reverse ++ c :: cur = s := by simpa using h
          rw [show (rest.reverse ++ c :: cur).reverse = cur.reverse ++ (c :: rest) from
            by simp]
          have hnw' : ∀ x ∈ cur.reverse, isWsChar x = false :=
            fun x hx => hnw x (List.mem_reverse.mp hx)
          rw [trimGo_nonws sw cur.reverse (c :: rest) [] hnw']
          simp only [List.reverse_reverse, List.append_nil]
          exact hval
    · have hw' : isWsChar c = false := by simpa using hw
      have hval : trimGo sw (c :: rest) cur = trimGo sw rest (c :: cur) := by
        simp [trimGo, hw']
      rw [hval] at h
      refine ih (c :: cur) s ?_ h
      intro x hx
      rcases List.mem_cons.mp hx with rfl | hx
      · exact hw'
      · exact hnw x hx

lemma trimGo_all_stop (sw : List (List Char)) :
    ∀ (r cur : List Char),
      (∀ tk ∈ revTokensGo r cur, isStopTok sw tk = true) →
      trimGo sw r cur = none := by
  intro r
  induction r with
  | nil =>
    intro cur hall
    by_cases hc : cur = []
    · simp [trimGo, hc]
    · have hcur : isStopTok sw cur = true := hall cur (by simp [revTokensGo, hc])
      simp [trimGo, hc, hcur]
  | cons c rest ih =>
    intro cur hall
    by_cases hw : isWsChar c = true
    · by_cases hc : cur = []
      · have hrw : revTokensGo (c :: rest) cur = revTokensGo rest [] := by
          simp [revTokensGo, hw, hc]
        have hval : trimGo sw (c :: rest) cur = trimGo sw rest [] := by
          simp [trimGo, hw, hc]
        rw [hval]
        exact ih [] (fun tk htk => hall tk (hrw ▸ htk))
      · have hrw : revTokensGo (c :: rest) cur = cur :: revTokensGo rest [] := by
          simp [revTokensGo, hw, hc]
        have hcur : isStopTok sw cur = true :=
          hall cur (by rw [hrw]; exact List.mem_cons_self _ _)
        have hval : trimGo sw (c :: rest) cur = trimGo sw rest [] := by
          simp [trimGo, hw, hc, hcur]
        rw [hval]
        exact ih [] (fun tk htk => hall tk (by rw [hrw]; exact List.mem_cons_of_mem _ htk))
    · have hw' : isWsChar c = false := by simpa using hw
      have hrw : revTokensGo (c :: rest) cur = revTokensGo rest (c :: cur) := by
        simp [revTokensGo, hw']
      have hval : trimGo sw (c :: rest) cur = trimGo sw rest (c :: cur) := by
        simp [trimGo, hw']
      rw [hval]
      exact ih (c :: cur) (fun tk htk => hall tk (hrw ▸ htk))

lemma trimGo_prefix (sw : List (List Char)) :
    ∀ (r cur s : List Char), trimGo sw r cur = some s →
      ∃ w, cur.reverse ++ r = w ++ s.reverse := by
  intro r
  induction r with
  | nil =>
    intro cur s h
    by_cases hc : cur = []
    · simp [trimGo, hc] at h
    · by_cases hst : isStopTok sw cur = true
      · simp [trimGo, hc, hst] at h
      · have hval : trimGo sw [] cur = some cur := by simp [trimGo, hc, hst]
        rw [hval] at h
        obtain rfl : cur = s := by simpa using h
        exact ⟨[], by simp⟩
  | cons c rest ih =>
    intro cur s h
    by_cases hw : isWsChar c = true
    · by_cases hc : cur = []
      · have hval : trimGo sw (c :: rest) cur = trimGo sw rest [] := by
          simp [trimGo, hw, hc]
        rw [hval] at h
        obtain ⟨w, hweq⟩ := ih [] s h
        simp only [List.reverse_nil, List.nil_append] at hweq
        exact ⟨c :: w, by simp [hc, hweq]⟩
      · by_cases hst : isStopTok sw cur = true
        · have hval : trimGo sw (c :: rest) cur = trimGo sw rest [] := by
            simp [trimGo, hw, hc, hst]
          rw [hval] at h
          obtain ⟨w, hweq⟩ := ih [] s h
          simp only [List.reverse_nil, List.nil_append] at hweq
          exact ⟨cur.reverse ++ c :: w, by simp [hweq, List.append_assoc]⟩
        · have hval : trimGo sw (c :: rest) cur = some (rest.reverse ++ c :: cur) := by
            simp [trimGo, hw, hc, hst]
          rw [hval] at h
          obtain rfl : rest.reverse ++ c :: cur = s := by simpa using h
          exact ⟨[], by simp⟩
    · have hw' : isWsChar c = false := by simpa using hw
      have hval : trimGo sw (c :: rest) cur = trimGo sw rest (c :: cur) := by
        simp [trimGo, hw']
      rw [hval] at h
      obtain ⟨w, hweq⟩ := ih (c :: cur) s h
      refine ⟨w, ?_⟩
      rw [← hweq]
      simp [List.append_assoc]

lemma trimGo_tokens (sw : List (List Char)) :
    ∀ (r cur s : List Char), (∀ x ∈ cur, isWsChar x = false) →
      trimGo sw r cur = some s →
      ∃ ds, revTokensGo r cur = ds ++ revTokens s ∧
        (∀ d ∈ ds, isStopTok sw d = true) ∧
        ∃ tk ts, revTokens s = tk :: ts ∧ isStopTok sw tk = false := by
  intro r
  induction r with
  | nil =>
    intro cur s hnw h
    by_cases hc : cur = []
    · simp [trimGo, hc] at h
    · by_cases hst : isStopTok sw cur = true
      · simp [trimGo, hc, hst] at h
      · have hval : trimGo sw [] cur = some cur := by simp [trimGo, hc, hst]
        rw [hval] at h
        obtain rfl : cur = s := by simpa using h
        have hnw' : ∀ x ∈ cur.reverse, isWsChar x = false :=
          fun x hx => hnw x (List.mem_reverse.mp hx)
        have htoks : revTokens cur = [cur] := by
          unfold revTokens
          have hgo := revTokensGo_nonws cur.reverse [] [] hnw'
          simp only [List.append_nil, List.reverse_reverse] at hgo
          rw [hgo]
          simp [revTokensGo, hc]
        refine ⟨[], by simp [htoks, revTokensGo, hc], by simp, cur, [], htoks, ?_⟩
        simpa using hst
  | cons c rest ih =>
    intro cur s hnw h
    by_cases hw : isWsChar c = true
    · by_cases hc : cur = []
      · have hval : trimGo sw (c :: rest) cur = trimGo sw rest [] := by
          simp [trimGo, hw, hc]
        have hrw : revTokensGo (c :: rest) cur = revTokensGo rest [] := by
          simp [revTokensGo, hw, hc]
        rw [hval] at h
        obtain ⟨ds, hds, hall, htk⟩ := ih [] s (by simp) h
        exact ⟨ds, by rw [hrw]; exact hds, hall, htk⟩
      · by_cases hst : isStopTok sw cur = true
        · have hval : trimGo sw (c :: rest) cur = trimGo sw rest [] := by
            simp [trimGo, hw, hc, hst]
          have hrw : revTokensGo (c :: rest) cur = cur :: revTokensGo rest [] := by
            simp [revTokensGo, hw, hc]
          rw [hval] at h
          obtain ⟨ds, hds, hall, htk⟩ := ih [] s (by simp) h
          refine ⟨cur :: ds, by rw [hrw, hds]; simp, ?_, htk⟩
          intro d hd
          rcases List.mem_cons.mp hd with rfl | hd
          · exact hst
          · exact hall d hd
        · have hval : trimGo sw (c :: rest) cur = some (rest.reverse ++ c :: cur) := by
            simp [trimGo, hw, hc, hst]
          rw [hval] at h
          obtain rfl : rest.reverse ++ c :: cur = s := by simpa using h
          have hnw' : ∀ x ∈ cur.reverse, isWsChar x = false :=
            fun x hx => hnw x (List.mem_reverse.mp hx)
          have hrw : revTokensGo (c :: rest) cur = cur :: revTokensGo rest [] := by
            simp [revTokensGo, hw, hc]
          have htoks : revTokens (rest.reverse ++ c :: cur) =
              cur :: revTokensGo rest [] := by
            unfold revTokens
            rw [show (rest.reverse ++ c :: cur).reverse = cur.reverse ++ (c :: rest) from
              by simp]
            rw [revTokensGo_nonws cur.reverse (c :: rest) [] hnw']
            simp only [List.reverse_reverse, List.append_nil]
            exact hrw
          refine ⟨[], by rw [hrw, htoks]; simp, by simp, cur, revTokensGo rest [],
            htoks, ?_⟩
          simpa using hst
    · have hw' : isWsChar c = false := by simpa using hw
      have hval : trimGo sw (c :: rest) cur = trimGo sw rest (c :: cur) := by
        simp [trimGo, hw']
      have hrw : revTokensGo (c :: rest) cur = revTokensGo rest (c :: cur) := by
        simp [revTokensGo, hw']
      rw [hval] at h
      have hnw' : ∀ x ∈ c :: cur, isWsChar x = false := by
        intro x hx
        rcases List.mem_cons.mp hx with rfl | hx
        · exact hw'
        · exact hnw x hx
      obtain ⟨ds, hds, hall, htk⟩ := ih (c :: cur) s hnw' h
      exact ⟨ds, by rw [hrw]; exact hds, hall, htk⟩

/-- C5: the Boundary Trimmer is idempotent; trailing whitespace-delimited
tokens case-insensitively equal to a stop word are dropped from the end
until a non-stop-word token is found; a span whose tokens are all stop
words is dropped entirely; and a surviving span keeps a prefix of its text
with the end offset recomputed as start plus trimmed length. -/
theorem boundary_trimmer_spec (sw : List (List Char)) (sp : Span) :
    TrimSpec sw sp := by
  refine ⟨?_, ?_, ?_⟩
  · unfold trimSpan
    cases h : trimText sw sp.text with
    | none => simp
    | some s =>
      have hs : trimText sw s = some s :=
        trimGo_restart sw sp.text.reverse [] s (by simp) h
      simp only [Option.some_bind]
      rw [hs]
  · intro hall
    unfold trimSpan
    rw [show trimText sw sp.text = none from
      trimGo_all_stop sw sp.text.reverse [] hall]
  · intro sp' hsp'
    unfold trimSpan at hsp'
    cases h : trimText sw sp.text with
    | none => rw [h] at hsp'; simp at hsp'
    | some s =>
      rw [h] at hsp'
      simp only [Option.some.injEq] at hsp'
      subst hsp'
      refine ⟨rfl, rfl, rfl, rfl, ?_, ?_, ?_⟩
      · obtain ⟨w, hweq⟩ := trimGo_prefix sw sp.text.reverse [] s h
        simp only [List.reverse_nil, List.nil_append] at hweq
        refine ⟨w.reverse, ?_⟩
        have := congrArg List.reverse hweq
        simpa using this
      · obtain ⟨ds, hds, hall, -⟩ := trimGo_tokens sw sp.text.reverse [] s (by simp) h
        exact ⟨ds, hds, hall⟩
      · obtain ⟨-, -, -, htk⟩ := trimGo_tokens sw sp.text.reverse [] s (by simp) h
        exact htk

/-- Witness for C1 is not needed: the theorem has no hypotheses.  Witness
for C2 at a concrete run: replace one span of hello with an entity tag. -/
theorem rewrite_length_accounting_witness :
    RewriteAccounting defaultParams
      [("X", ResolvedOp.builtin BuiltinOp.replace)] "hello".data
      [⟨1, 3, "X", "el".data, 1⟩] () :=
  rewrite_length_accounting defaultParams
    [("X", ResolvedOp.builtin BuiltinOp.replace)] "hello".data
    [⟨1, 3, "X", "el".data, 1⟩] () (by decide) (by decide)

/-- Witness for C3 at the three-span chain A-B-C where A and C do not
overlap each other but both overlap B. -/
theorem resolver_connected_components_witness :
    ResolveClusterSpec (fun t => if t = "A" then 2 else 1)
      [⟨0, 5, "A", "aaaaa".data, 1⟩, ⟨4, 8, "B", "bbbb".data, 1⟩,
       ⟨7, 10, "B", "ccc".data, 1⟩] :=
  resolver_connected_components (fun t => if t = "A" then 2 else 1)
    [⟨0, 5, "A", "aaaaa".data, 1⟩, ⟨4, 8, "B", "bbbb".data, 1⟩,
     ⟨7, 10, "B", "ccc".data, 1⟩] (by decide)

/-- Witness for C4: a higher-priority overlapping span of the same score
and length wins in both input orders. -/
theorem resolve_priority_tiebreak_witness :
    resolve (fun t => if t = "A" then 2 else 1)
        [⟨0, 5, "A", "aaaaa".data, 1⟩, ⟨3, 8, "B", "bbbbb".data, 1⟩] =
      [⟨0, 5, "A", "aaaaa".data, 1⟩] ∧
      resolve (fun t => if t = "A" then 2 else 1)
          [⟨3, 8, "B", "bbbbb".data, 1⟩, ⟨0, 5, "A", "aaaaa".data, 1⟩] =
        [⟨0, 5, "A", "aaaaa".data, 1⟩] :=
  (resolve_priority_tiebreak (fun t => if t = "A" then 2 else 1)
    ⟨0, 5, "A", "aaaaa".data, 1⟩ ⟨3, 8, "B", "bbbbb".data, 1⟩ (by decide)).1
    (by decide) (by decide) (by decide) (by decide)

/-- Witness for C5 at the boundary-trim scenario of the spec: the span text
Bruno Aloi Subject with Subject configured as a stop word. -/
theorem boundary_trimmer_spec_witness :
    TrimSpec ["subject".data]
      ⟨0, 18, "NAME_CONSULTANT", "Bruno Aloi Subject".data, 1⟩ :=
  boundary_trimmer_spec ["subject".data]
    ⟨0, 18, "NAME_CONSULTANT", "Bruno Aloi Subject".data, 1⟩

/-- Witness for C6: a keep-only configuration leaves hello unchanged. -/
theorem rewrite_keep_roundtrip_witness :
    rewrite defaultParams [("X", OpSpec.name "keep")] "hello".data
        [⟨1, 3, "X", "el".data, 1⟩] () =
      .ok ("hello".data, [(⟨1, 3, "X", "el".data, 1⟩ : Span)].map keepAudit, ()) ∧
      ∀ a ∈ [(⟨1, 3, "X", "el".data, 1⟩ : Span)].map keepAudit,
        a.replLen = a.origLen :=
  rewrite_keep_roundtrip defaultParams [("X", OpSpec.name "keep")]
    [("X", ResolvedOp.builtin BuiltinOp.keep)] "hello".data
    [⟨1, 3, "X", "el".data, 1⟩] () rfl (by decide) (by decide)
    (by
      intro sp hsp
      rw [List.mem_singleton] at hsp
      subst hsp
      rfl)

/-- Witness for C7: an operator name masq is not recognized, so the whole
call errors. -/
theorem rewrite_unknown_operator_fails_witness :
    ∃ e, rewrite defaultParams [("PERSON", OpSpec.name "masq")]
      "hi".data [] () = .error e :=
  rewrite_unknown_operator_fails defaultParams [("PERSON", OpSpec.name "masq")]
    "hi".data [] () ⟨"PERSON", "masq", List.mem_singleton.mpr rfl, rfl⟩

/-- Witness for C8: a DOB span whose text notadate fails the age parse. -/
theorem age_bracket_parse_failure_recovery_witness :
    AgeBracketRecovery defaultParams [("DOB", OpSpec.name "age_bracket")]
      [("DOB", ResolvedOp.builtin BuiltinOp.ageBracket)]
      "DOB: notadate".data [⟨5, 13, "DOB", "notadate".data, 1⟩] () :=
  age_bracket_parse_failure_recovery defaultParams
    [("DOB", OpSpec.name "age_bracket")]
    [("DOB", ResolvedOp.builtin BuiltinOp.ageBracket)]
    "DOB: notadate".data [⟨5, 13, "DOB", "notadate".data, 1⟩] () rfl

/-- Witness for C10: the traced identity custom operator on the PERSON type
over the counter scenario spans. -/
theorem custom_operator_invocations_witness :
    CustomOpContract defaultParams
        [("PERSON", ResolvedOp.custom (traceFn (fun txt _ => txt)))]
        (fun txt _ => txt)
        (fun t => if t = "PERSON" then none else some BuiltinOp.replace)
        srcCounter spansCounter [] ∧
      Except.map (fun r => (r.1, r.2.2))
          (rewrite defaultParams cfgCounter srcCounter spansCounter []) =
        .ok ("<PERSON_1> and <PERSON_2> both live in <LOCATION_1>.".data,
          [("PERSON", 2), ("LOCATION", 1)]) :=
  custom_operator_invocations defaultParams
    [("PERSON", ResolvedOp.custom (traceFn (fun txt _ => txt)))]
    (fun txt _ => txt)
    (fun t => if t = "PERSON" then none else some BuiltinOp.replace)
    srcCounter spansCounter []
    (by
      intro sp hsp
      have h3 : sp = (⟨0, 10, "PERSON", "John Smith".data, 1⟩ : Span) ∨
          sp = (⟨15, 23, "PERSON", "Jane Doe".data, 1⟩ : Span) ∨
          sp = (⟨37, 43, "LOCATION", "Sydney".data, 1⟩ : Span) := by
        simpa [spansCounter] using hsp
      rcases h3 with rfl | rfl | rfl <;> rfl)
    (by decide)

end Ally

